import Mathlib

/-!
Shallow embedding of the training control loop of `enn_trainer/train.py`
(PPO training loop: configuration guards, step numbering, evaluation
scheduling, loss scaling, gradient all-reduce, metric aggregation,
returns/advantages, and initial state construction), together with
theorems settling the specification claims about it.

Numeric quantities that are floating point in the source (losses,
gradients, rewards, KL values) are modelled as rationals; counters are
naturals.
-/

namespace EnnTrainer

/-- Rollout section of the configuration (`cfg.rollout` in `train.py`). -/
structure RolloutConfig where
  num_envs : Nat
  steps : Nat
  deriving DecidableEq, Repr

/-- Optimizer section of the configuration (`cfg.optim` in `train.py`). -/
structure OptimConfig where
  bs : Nat
  micro_bs : Option Nat
  update_epochs : Nat
  deriving DecidableEq, Repr

/-- Evaluation section of the configuration (`cfg.eval` in `train.py`). -/
structure EvalConfig where
  interval : Nat
  run_on_first_step : Bool
  deriving DecidableEq, Repr

/-- The slice of `TrainConfig` that the control-flow claims depend on.
`vf_net` is the optional separate value-network configuration; only its
presence matters for the embedded control flow, so it is `Option Unit`. -/
structure TrainConfig where
  total_timesteps : Nat
  rollout : RolloutConfig
  optim : OptimConfig
  eval : Option EvalConfig
  vf_net : Option Unit
  deriving DecidableEq, Repr

/-- The slice of the mutable `State` dataclass of `train.py` that the
claims depend on: the `step` and `restart` counters, the evaluation
cursor, and the presence of the separate value function and its
optimizer (network/optimizer contents are opaque to the control flow). -/
structure TrainState where
  step : Nat
  restart : Nat
  next_eval_step : Option Nat
  value_function : Option Unit
  vf_optimizer : Option Unit
  deriving DecidableEq, Repr

/-- `init_train_state` (train.py lines 702-749): the initial state has
`step = 0`, `restart = 0`; `next_eval_step` is `None` when `cfg.eval` is
`None`, `0` when evaluation runs on the first step, and the evaluation
interval otherwise; the separate value function and its optimizer are
created exactly when `cfg.vf_net` is given. -/
def init_train_state (cfg : TrainConfig) : TrainState :=
  let next_eval_step : Option Nat :=
    match cfg.eval with
    | some e => if e.run_on_first_step then some 0 else some e.interval
    | none => none
  { step := 0
    restart := 0
    next_eval_step := next_eval_step
    value_function := cfg.vf_net.map fun _ => ()
    vf_optimizer := cfg.vf_net.map fun _ => () }

/-- Restore-time adjustment of the state (train.py lines 253-254):
`if state.step > 0: state.restart += 1`. -/
def restoreAdjust (s : TrainState) : TrainState :=
  if s.step > 0 then { s with restart := s.restart + 1 } else s

/-- Modelled from the spec (the `Metric` class lives in the external
`entity_gym` package, only its use appears in `train.py` lines 380-404):
an online aggregate `{count, sum, min, max}` over a scalar stream, merged
with `+` by adding counts and sums and taking the pointwise min/max. -/
structure Metric where
  count : Nat
  sum : ℚ
  min : ℚ
  max : ℚ
  deriving DecidableEq, Repr

/-- Merge of two metric aggregates (the `Metric.__add__` used by
`metrics[k] += m` in `train.py` line 402, modelled from the spec). -/
def Metric.merge (a b : Metric) : Metric :=
  { count := a.count + b.count
    sum := a.sum + b.sum
    min := Min.min a.min b.min
    max := Max.max a.max b.max }

/-- One record per executed update iteration of the training loop:
the `update` loop index, the `global_step` computed after the rollout
(train.py line 378: `rollout.global_step * parallelism + initial_step`),
and the value assigned to `state.step` at the end of the iteration
(train.py line 651: `state.step = global_step`). -/
structure UpdateRecord where
  update : Nat
  global_step : Nat
  step_after : Nat
  deriving DecidableEq, Repr

/-- The body of the update loop, iterated over the update indices, carrying
`rollout.global_step` (the per-rank environment-step counter, which starts
at 0 in each process). Modelled from the spec for the part in `rollout.py`
(not under src): each `rollout.run(cfg.rollout.steps)` call advances
`rollout.global_step` by `steps * num_envs_per_rank`, where
`num_envs_per_rank = cfg.rollout.num_envs // parallelism` (train.py
line 239). -/
def runUpdatesAux (cfg : TrainConfig) (par initial_step : Nat) :
    List Nat → Nat → List UpdateRecord
  | [], _ => []
  | u :: rest, rgs =>
    let rgs' := rgs + cfg.rollout.steps * (cfg.rollout.num_envs / par)
    let gs := rgs' * par + initial_step
    ⟨u, gs, gs⟩ :: runUpdatesAux cfg par initial_step rest rgs'

/-- The update loop of `train` (train.py lines 339-343, 374-378, 651):
`num_updates = total_timesteps // (num_envs * steps)` and the loop runs
`update` over `range(1 + initial_step // (num_envs * steps),
num_updates + 1)`. -/
def runUpdates (cfg : TrainConfig) (par initial_step : Nat) : List UpdateRecord :=
  runUpdatesAux cfg par initial_step
    (List.range'
      (1 + initial_step / (cfg.rollout.num_envs * cfg.rollout.steps))
      (cfg.total_timesteps / (cfg.rollout.num_envs * cfg.rollout.steps) + 1 -
        (1 + initial_step / (cfg.rollout.num_envs * cfg.rollout.steps)))) 0

/-- `train` up to its configuration assertions (train.py lines 178-181 and
214-221) followed by the update loop: the rollout-size assertion, then the
two parallelism-divisibility assertions, checked in source order before
any environment is constructed and before the update loop starts. -/
def train (cfg : TrainConfig) (par initial_step : Nat) :
    Except String (List UpdateRecord) :=
  if ¬ cfg.rollout.num_envs * cfg.rollout.steps ≥ cfg.optim.bs then
    Except.error "Number of frames per rollout is smaller than batch size"
  else if ¬ cfg.optim.bs % par = 0 then
    Except.error "Batch size must be divisible by number of processes"
  else if ¬ cfg.rollout.num_envs % par = 0 then
    Except.error "Number of environments must be divisible by number of processes"
  else
    Except.ok (runUpdates cfg par initial_step)

/-- The approximate KL of the last microbatch of an epoch (`approx_kl`
holds the value from the most recent `ppo_loss` call when the epoch's
minibatch loop finishes, train.py lines 494-497). The microbatch loop is
never empty in the source (`frames ≥ bs // parallelism ≥ 1`), so the
default is irrelevant there. -/
def lastKl (kls : List ℚ) : ℚ := kls.getLastD 0

/-- The epoch loop of one update (train.py lines 448, 547-549): each entry
of `kls` lists the approximate KL values of the microbatches of one
potential epoch, in processing order. After an epoch's minibatch loop
completes, if a target KL is configured and the current `approx_kl` (the
last microbatch's) exceeds it, the remaining epochs are skipped via
`break`. Returns the number of epochs that execute. -/
def epochsRun (target_kl : Option ℚ) : List (List ℚ) → Nat
  | [] => 0
  | k :: rest =>
    1 + (match target_kl with
      | none => epochsRun target_kl rest
      | some t => if lastKl k > t then 0 else epochsRun target_kl rest)

/-- Result of the evaluation-scheduling check at the top of one update
iteration: the updated `state.next_eval_step` and whether an evaluation
batch runs. -/
structure EvalDecision where
  next_eval_step : Option Nat
  run_eval : Bool
  deriving DecidableEq, Repr

/-- The evaluation trigger at the start of each update iteration
(train.py lines 344-350): when `cfg.eval` is configured,
`state.next_eval_step` is set, and `rollout.global_step * parallelism`
has reached it, advance `next_eval_step` by `cfg.eval.interval` and run
one evaluation; otherwise leave it unchanged and run none. Note the
comparison uses `rollout.global_step * parallelism`, which starts from 0
in each process and does not include `initial_step`. -/
def evalCheck (evalEnabled : Bool) (interval : Nat) (next_eval_step : Option Nat)
    (rollout_global_step par : Nat) : EvalDecision :=
  match next_eval_step with
  | some n =>
    if evalEnabled ∧ n ≤ rollout_global_step * par then
      ⟨some (n + interval), true⟩
    else
      ⟨some n, false⟩
  | none => ⟨none, false⟩

/-- The evaluation trigger as the claim states it: the comparison uses the
checkpoint-consistent global step, i.e. `rollout.global_step * parallelism
+ initial_step`, including the step count restored from a checkpoint.
Stated from the claim's words for comparison with `evalCheck`. -/
def evalCheckClaimed (evalEnabled : Bool) (interval : Nat)
    (next_eval_step : Option Nat) (rollout_global_step par initial_step : Nat) :
    EvalDecision :=
  match next_eval_step with
  | some n =>
    if evalEnabled ∧ n ≤ rollout_global_step * par + initial_step then
      ⟨some (n + interval), true⟩
    else
      ⟨some n, false⟩
  | none => ⟨none, false⟩

/-- Per-sample loss contributions of one element of a microbatch: its
clipped-surrogate policy term, entropy, and value-loss term. Modelled from
the spec for the part in `ppo.py` (not under src): `ppo_loss` returns
`policy_loss = -mean(min(unclipped, clipped))` and `value_loss` a
mean-squared error, so each microbatch loss component is the mean of
per-sample contributions. -/
structure SampleLoss where
  pg : ℚ
  ent : ℚ
  vl : ℚ

def mean (xs : List ℚ) : ℚ := xs.sum / xs.length

/-- The combined loss of one microbatch before scaling (train.py line 523):
`loss = pg_loss - ent_coef * entropy_loss + v_loss * vf_coef`, each
component being the mean over the microbatch. -/
def microLoss (ent_coef vf_coef : ℚ) (mb : List SampleLoss) : ℚ :=
  mean (mb.map SampleLoss.pg) - ent_coef * mean (mb.map SampleLoss.ent) +
    mean (mb.map SampleLoss.vl) * vf_coef

/-- The loss actually backpropagated for one microbatch (train.py line 524):
`loss *= microbatch_size / cfg.optim.bs`. -/
def scaledLoss (ent_coef vf_coef : ℚ) (microbatch_size bs : Nat)
    (mb : List SampleLoss) : ℚ :=
  microLoss ent_coef vf_coef mb * ((microbatch_size : ℚ) / bs)

/-- The per-sample total loss `pg - ent_coef * ent + vl * vf_coef`
(the integrand of the full-batch average loss). -/
def totalLoss (ent_coef vf_coef : ℚ) (s : SampleLoss) : ℚ :=
  s.pg - ent_coef * s.ent + s.vl * vf_coef

/-- Per-parameter gradients of one model replica, in parameter enumeration
order: `none` models `param.grad is None`, `some g` a flattened gradient
of `g.length` elements. -/
abbrev ParamGrads := List (Option (List ℚ))

/-- The flat buffer built by `gradient_allreduce` (train.py lines 676-680):
the concatenation (`torch.cat`) of the flattened gradients of exactly the
parameters whose gradient is non-null, in enumeration order. -/
def flatGrads (ps : ParamGrads) : List ℚ :=
  (ps.filterMap id).flatten

/-- Elementwise sum of the ranks' flat buffers: the effect of
`dist.all_reduce(all_grads, op=dist.ReduceOp.SUM)` (train.py line 681),
which replaces each rank's buffer with the elementwise sum over all
ranks. -/
def sumBuffers : List (List ℚ) → List ℚ
  | [] => []
  | [b] => b
  | b :: bs => List.zipWith (· + ·) b (sumBuffers bs)

/-- The write-back loop of `gradient_allreduce` (train.py lines 682-688):
walk the parameters in order; copy the next `param.numel()` entries of the
reduced buffer into each non-null gradient, advancing the offset; leave
null gradients untouched. -/
def writeback (ps : ParamGrads) (buf : List ℚ) : ParamGrads :=
  match ps with
  | [] => []
  | none :: rest => none :: writeback rest buf
  | some g :: rest => some (buf.take g.length) :: writeback rest (buf.drop g.length)

/-- `gradient_allreduce(model)` as observed by one rank holding gradients
`me`, where `world` lists every rank's parameter gradients (including
`me`): concatenate the non-null gradients, sum-reduce the flat buffer
across all ranks, write the summed values back in place. -/
def gradient_allreduce (world : List ParamGrads) (me : ParamGrads) : ParamGrads :=
  writeback me (sumBuffers (world.map flatGrads))

/-- Pointwise (per-parameter, elementwise) sum of two replicas' gradients;
`none` where a gradient is null. -/
def addParams (ps qs : ParamGrads) : ParamGrads :=
  List.zipWith (fun a b =>
    match a, b with
    | some g, some h => some (List.zipWith (· + ·) g h)
    | _, _ => none) ps qs

/-- Per-parameter elementwise sum of all ranks' gradients. -/
def sumParams : List ParamGrads → ParamGrads
  | [] => []
  | [p] => p
  | p :: q :: rest => addParams p (sumParams (q :: rest))

/-- The null pattern and per-parameter sizes of a replica's gradients. -/
def gradShape (ps : ParamGrads) : List (Option Nat) :=
  ps.map (Option.map List.length)

/-- The non-terminal indicator `1 - done[t]` for a boolean done flag. -/
def nonterm (d : Bool) : ℚ := if d then 0 else 1

/-- Modelled from the spec (the `gae_enabled = false` branch of
`returns_and_advantages` lives in `gae.py`, which is not under src):
reverse-chronological returns for one environment lane,
`return[t] = reward[t] + gamma * (1 - done[t]) * return[t+1]`, with the
bootstrap value standing in for `return[T]` at the window boundary. Each
list element pairs one step's reward with its done flag. -/
def computeReturns (gamma boot : ℚ) : List (ℚ × Bool) → List ℚ
  | [] => []
  | (r, d) :: rest =>
    (r + gamma * nonterm d * (computeReturns gamma boot rest).headD boot) ::
      computeReturns gamma boot rest

/-- Modelled from the spec: `advantage[t] = return[t] - value[t]` in the
non-GAE branch. -/
def computeAdvantages (values rets : List ℚ) : List ℚ :=
  List.zipWith (fun ret v => ret - v) rets values

/-- Product of the non-terminal indicators over a window prefix: zero as
soon as the prefix contains a done flag. -/
def maskProd (l : List (ℚ × Bool)) : ℚ :=
  (l.map fun rd => nonterm rd.2).prod

/-- The discounted sum of future rewards truncated at episode boundaries
(done flags zero all later contributions), plus the discounted bootstrap
term, which survives only if no done flag occurs in the window. -/
def discountedReturn (gamma boot : ℚ) (l : List (ℚ × Bool)) : ℚ :=
  ((List.range l.length).map fun k =>
      gamma ^ k * maskProd (l.take k) * (l.getD k (0, true)).1).sum +
    gamma ^ l.length * maskProd l * boot

end EnnTrainer

namespace EnnTrainer

/-- C8: The Metric merge operation on aggregates `{count, sum, min, max}`
is associative and commutative, so cross-rank metric combination after
all-gather is order-independent. -/
theorem metric_merge_assoc_comm (a b c : Metric) :
    (a.merge b).merge c = a.merge (b.merge c) ∧ a.merge b = b.merge a := by
  refine ⟨?_, ?_⟩ <;> simp only [Metric.merge, Metric.mk.injEq]
  · exact ⟨by omega, by ring, min_assoc _ _ _, max_assoc _ _ _⟩
  · exact ⟨by omega, by ring, min_comm _ _, max_comm _ _⟩

/-- C7: restoring state increments the restart counter exactly when the
restored step counter is positive; a fresh run (step 0) keeps the
restart counter, and nothing else in the state changes. -/
theorem restore_restart_iff (s : TrainState) :
    (restoreAdjust s).restart = (if 0 < s.step then s.restart + 1 else s.restart) ∧
    (restoreAdjust s).step = s.step ∧
    (restoreAdjust s).next_eval_step = s.next_eval_step ∧
    ((restoreAdjust s).restart = s.restart + 1 ↔ 0 < s.step) := by
  unfold restoreAdjust
  by_cases h : 0 < s.step <;> simp [h]

/-- C10: `init_train_state` yields `step = 0`, `restart = 0`;
`next_eval_step = none` iff evaluation is disabled, `some 0` when
evaluation runs on the first step and `some interval` otherwise; and the
separate value function and its optimizer are present iff a separate
value-network configuration is given. -/
theorem init_train_state_spec (cfg : TrainConfig) :
    (init_train_state cfg).step = 0 ∧
    (init_train_state cfg).restart = 0 ∧
    ((init_train_state cfg).next_eval_step = none ↔ cfg.eval = none) ∧
    (∀ e, cfg.eval = some e →
      (init_train_state cfg).next_eval_step =
        some (if e.run_on_first_step then 0 else e.interval)) ∧
    ((init_train_state cfg).value_function.isSome ↔ cfg.vf_net.isSome) ∧
    ((init_train_state cfg).vf_optimizer.isSome ↔ cfg.vf_net.isSome) := by
  unfold init_train_state
  refine ⟨rfl, rfl, ?_, ?_, ?_, ?_⟩
  · cases h : cfg.eval with
    | none => simp
    | some e => by_cases hr : e.run_on_first_step <;> simp [hr]
  · intro e he
    by_cases hr : e.run_on_first_step = true <;> simp [he, hr]
  · cases cfg.vf_net <;> simp
  · cases cfg.vf_net <;> simp

theorem runUpdatesAux_length (cfg : TrainConfig) (par S : Nat) (us : List Nat)
    (rgs : Nat) : (runUpdatesAux cfg par S us rgs).length = us.length := by
  induction us generalizing rgs with
  | nil => rfl
  | cons u rest ih => simp [runUpdatesAux, ih]

theorem runUpdatesAux_getD (cfg : TrainConfig) (par S : Nat) :
    ∀ (us : List Nat) (rgs i : Nat), i < us.length →
    (runUpdatesAux cfg par S us rgs).getD i ⟨0, 0, 0⟩ =
      ⟨us.getD i 0,
       (rgs + (i + 1) * (cfg.rollout.steps * (cfg.rollout.num_envs / par))) * par + S,
       (rgs + (i + 1) * (cfg.rollout.steps * (cfg.rollout.num_envs / par))) * par + S⟩ := by
  intro us
  induction us with
  | nil => intro rgs i hi; exact absurd hi (Nat.not_lt_zero i)
  | cons u rest ih =>
    intro rgs i hi
    cases i with
    | zero => simp [runUpdatesAux]
    | succ j =>
      have hj : j < rest.length := by simpa using hi
      have key := ih (rgs + cfg.rollout.steps * (cfg.rollout.num_envs / par)) j hj
      simp only [runUpdatesAux, List.getD_cons_succ]
      rw [key]
      simp only [UpdateRecord.mk.injEq]
      refine ⟨by simp, by ring, by ring⟩

/-- C1: with parallelism dividing the number of environments (the asserted
configuration invariant) and a positive rollout size, a run resumed from
persisted step `S` executes update iterations starting at
`1 + S / (num_envs * steps)`; the `i`-th executed iteration records
`global_step = (i+1) * num_envs * steps + S` (which is
`rollout.global_step * parallelism + S`) and assigns exactly that value to
`state.step`; global steps are strictly increasing and all exceed `S`. -/
theorem resumed_step_numbering (cfg : TrainConfig) (par S : Nat)
    (hdvd : par ∣ cfg.rollout.num_envs)
    (hD : 0 < cfg.rollout.num_envs * cfg.rollout.steps) :
    (runUpdates cfg par S).length =
      cfg.total_timesteps / (cfg.rollout.num_envs * cfg.rollout.steps) -
        S / (cfg.rollout.num_envs * cfg.rollout.steps) ∧
    (∀ i, i < (runUpdates cfg par S).length →
      (runUpdates cfg par S).getD i ⟨0, 0, 0⟩ =
        ⟨1 + S / (cfg.rollout.num_envs * cfg.rollout.steps) + i,
         (i + 1) * (cfg.rollout.num_envs * cfg.rollout.steps) + S,
         (i + 1) * (cfg.rollout.num_envs * cfg.rollout.steps) + S⟩) ∧
    (∀ i j, i < j → j < (runUpdates cfg par S).length →
      ((runUpdates cfg par S).getD i ⟨0, 0, 0⟩).global_step <
        ((runUpdates cfg par S).getD j ⟨0, 0, 0⟩).global_step) ∧
    (∀ i, i < (runUpdates cfg par S).length →
      S < ((runUpdates cfg par S).getD i ⟨0, 0, 0⟩).global_step) := by
  have hΔ : cfg.rollout.steps * (cfg.rollout.num_envs / par) * par =
      cfg.rollout.num_envs * cfg.rollout.steps := by
    rw [mul_assoc, Nat.div_mul_cancel hdvd, mul_comm]
  have hlen : (runUpdates cfg par S).length =
      cfg.total_timesteps / (cfg.rollout.num_envs * cfg.rollout.steps) -
        S / (cfg.rollout.num_envs * cfg.rollout.steps) := by
    unfold runUpdates
    rw [runUpdatesAux_length, List.length_range']
    omega
  have hget : ∀ i, i < (runUpdates cfg par S).length →
      (runUpdates cfg par S).getD i ⟨0, 0, 0⟩ =
        ⟨1 + S / (cfg.rollout.num_envs * cfg.rollout.steps) + i,
         (i + 1) * (cfg.rollout.num_envs * cfg.rollout.steps) + S,
         (i + 1) * (cfg.rollout.num_envs * cfg.rollout.steps) + S⟩ := by
    intro i hi
    have hi' : i < (List.range'
        (1 + S / (cfg.rollout.num_envs * cfg.rollout.steps))
        (cfg.total_timesteps / (cfg.rollout.num_envs * cfg.rollout.steps) + 1 -
          (1 + S / (cfg.rollout.num_envs * cfg.rollout.steps)))).length := by
      rw [List.length_range']
      rw [hlen] at hi
      omega
    unfold runUpdates
    rw [runUpdatesAux_getD _ _ _ _ _ _ hi']
    simp only [UpdateRecord.mk.injEq]
    refine ⟨?_, ?_, ?_⟩
    · rw [List.getD_eq_getElem _ _ hi']
      exact List.getElem_range'_1 i hi'
    · rw [zero_add, mul_assoc, hΔ]
    · rw [zero_add, mul_assoc, hΔ]
  refine ⟨hlen, hget, ?_, ?_⟩
  · intro i j hij hj
    rw [hget i (lt_trans hij hj), hget j hj]
    dsimp only
    have : (i + 1) * (cfg.rollout.num_envs * cfg.rollout.steps) <
        (j + 1) * (cfg.rollout.num_envs * cfg.rollout.steps) :=
      Nat.mul_lt_mul_of_lt_of_le (Nat.succ_lt_succ hij) le_rfl hD
    omega
  · intro i hi
    rw [hget i hi]
    dsimp only
    have : 0 < (i + 1) * (cfg.rollout.num_envs * cfg.rollout.steps) :=
      Nat.mul_pos (Nat.succ_pos i) hD
    omega

/-- Witness for `resumed_step_numbering`: resuming from step 16 with
`num_envs = 4, steps = 2, total_timesteps = 32, parallelism = 2`, the
first executed update iteration is `3 = 1 + 16 / 8` and records
`global_step = 24 = 8 + 16`. -/
theorem resumed_step_numbering_witness :
    (2 ∣ (4 : Nat)) ∧ 0 < (4 : Nat) * 2 ∧
    (runUpdates ⟨32, ⟨4, 2⟩, ⟨8, none, 1⟩, none, none⟩ 2 16).getD 0 ⟨0, 0, 0⟩ =
      ⟨3, 24, 24⟩ := by
  refine ⟨by decide, by decide, ?_⟩
  have h := resumed_step_numbering ⟨32, ⟨4, 2⟩, ⟨8, none, 1⟩, none, none⟩ 2 16
    (by decide) (by decide)
  have h0 := h.2.1 0 (by decide)
  exact h0.trans (by decide)

/-- C2: a configuration whose batch size or environment count is not
divisible by the parallelism factor makes `train` fail with a
configuration error before the update loop (and hence before any rollout)
executes: the result is an error and never a list of update records. -/
theorem divisibility_guard (cfg : TrainConfig) (par S : Nat)
    (h : ¬ cfg.optim.bs % par = 0 ∨ ¬ cfg.rollout.num_envs % par = 0) :
    (∃ msg, train cfg par S = Except.error msg) ∧
    ∀ recs, train cfg par S ≠ Except.ok recs := by
  have herr : ∃ msg, train cfg par S = Except.error msg := by
    unfold train
    by_cases h1 : cfg.rollout.num_envs * cfg.rollout.steps ≥ cfg.optim.bs
    · rw [if_neg (not_not_intro h1)]
      cases h with
      | inl hb =>
        rw [if_pos hb]
        exact ⟨_, rfl⟩
      | inr he =>
        by_cases h2 : cfg.optim.bs % par = 0
        · rw [if_neg (not_not_intro h2), if_pos he]
          exact ⟨_, rfl⟩
        · rw [if_pos h2]
          exact ⟨_, rfl⟩
    · rw [if_pos h1]
      exact ⟨_, rfl⟩
  refine ⟨herr, ?_⟩
  intro recs hok
  obtain ⟨msg, hmsg⟩ := herr
  rw [hok] at hmsg
  exact Except.noConfusion hmsg

/-- Witness for `divisibility_guard`: `num_envs = 10, parallelism = 3`
(with batch size 4, also not divisible by 3) fails fast. -/
theorem divisibility_guard_witness :
    (¬ (4 : Nat) % 3 = 0 ∨ ¬ (10 : Nat) % 3 = 0) ∧
    ∃ msg, train ⟨40, ⟨10, 2⟩, ⟨4, none, 1⟩, none, none⟩ 3 0 = Except.error msg :=
  ⟨Or.inr (by decide),
   (divisibility_guard ⟨40, ⟨10, 2⟩, ⟨4, none, 1⟩, none, none⟩ 3 0
     (Or.inr (by decide))).1⟩

/-- C5: with a configured target KL `t`, the early exit is decided exactly
once per epoch, after the epoch's minibatch loop completes, from the
approximate KL of the last microbatch of that epoch only: the number of
executed epochs is the position of the first epoch whose last-microbatch
KL exceeds `t` plus one (that epoch itself completes), capped at the
configured epoch count; the outcome depends only on each epoch's last
microbatch KL; no epoch after the breach runs, and the first epoch always
runs — the loop returns normally rather than raising an error, so
training continues with the next update. -/
theorem epochsRun_cons_pos (t : ℚ) (k : List ℚ) (rest : List (List ℚ))
    (hk : lastKl k > t) : epochsRun (some t) (k :: rest) = 1 := by
  simp [epochsRun, hk]

theorem epochsRun_cons_neg (t : ℚ) (k : List ℚ) (rest : List (List ℚ))
    (hk : ¬lastKl k > t) :
    epochsRun (some t) (k :: rest) = 1 + epochsRun (some t) rest := by
  simp [epochsRun, hk]

theorem target_kl_early_exit (t : ℚ) (kls : List (List ℚ)) :
    epochsRun (some t) kls =
      min kls.length ((kls.findIdx fun k => decide (lastKl k > t)) + 1) ∧
    epochsRun (some t) kls = epochsRun (some t) (kls.map fun k => [lastKl k]) ∧
    epochsRun (some t) kls ≤ kls.length ∧
    (kls ≠ [] → 1 ≤ epochsRun (some t) kls) := by
  have hmin : ∀ l : List (List ℚ), epochsRun (some t) l =
      min l.length ((l.findIdx fun k => decide (lastKl k > t)) + 1) := by
    intro l
    induction l with
    | nil => rfl
    | cons k rest ih =>
      by_cases hk : lastKl k > t
      · rw [epochsRun_cons_pos t k rest hk, List.findIdx_cons,
          decide_eq_true hk, Bool.cond_true, List.length_cons]
        omega
      · rw [epochsRun_cons_neg t k rest hk, ih, List.findIdx_cons,
          decide_eq_false hk, Bool.cond_false, List.length_cons]
        omega
  have hlast : ∀ l : List (List ℚ), epochsRun (some t) l =
      epochsRun (some t) (l.map fun k => [lastKl k]) := by
    intro l
    induction l with
    | nil => rfl
    | cons k rest ih =>
      have h1 : lastKl [lastKl k] = lastKl k := rfl
      by_cases hk : lastKl k > t
      · rw [List.map_cons, epochsRun_cons_pos t k rest hk,
          epochsRun_cons_pos t [lastKl k] _ (by rw [h1]; exact hk)]
      · rw [List.map_cons, epochsRun_cons_neg t k rest hk,
          epochsRun_cons_neg t [lastKl k] _ (by rw [h1]; exact hk), ih]
  refine ⟨hmin kls, hlast kls, ?_, ?_⟩
  · rw [hmin kls]
    exact min_le_left _ _
  · intro hne
    cases kls with
    | nil => exact absurd rfl hne
    | cons k rest =>
      by_cases hk : lastKl k > t
      · rw [epochsRun_cons_pos t k rest hk]
      · rw [epochsRun_cons_neg t k rest hk]
        omega

/-- Witness for `target_kl_early_exit`: target KL `2`, three configured
epochs whose microbatch KLs end in `1`, `4`, `1`: the second epoch's last
KL exceeds the target, so exactly two epochs run. -/
theorem target_kl_early_exit_witness :
    epochsRun (some (2 : ℚ)) [[1, 1], [3, 4], [1]] = 2 ∧
    ([[1, 1], [3, 4], [1]] : List (List ℚ)) ≠ [] := by
  refine ⟨?_, by decide⟩
  have h := target_kl_early_exit (2 : ℚ) [[1, 1], [3, 4], [1]]
  exact h.1.trans (by decide)

/-- C6 counterexample: a run resumed from checkpoint step 128, with
`next_eval_step = 100` restored from the checkpoint and
`rollout.global_step = 0` at the first update of the resumed run. The
checkpoint-consistent global step is `0 * 1 + 128 = 128 ≥ 100`, so the
claim says evaluation runs and the cursor advances — but the code compares
`rollout.global_step * parallelism = 0 < 100` and does neither. -/
theorem eval_trigger_counterexample :
    evalCheck true 1000 (some 100) 0 1 = ⟨some 100, false⟩ ∧
    evalCheckClaimed true 1000 (some 100) 0 1 128 = ⟨some 1100, true⟩ ∧
    evalCheck true 1000 (some 100) 0 1 ≠
      evalCheckClaimed true 1000 (some 100) 0 1 128 := by
  refine ⟨?_, ?_, ?_⟩ <;> decide

/-- C6 (amended): at the start of every update iteration, if evaluation is
enabled, `next_eval_step` is set, and `rollout.global_step * parallelism`
— the global step counted from the start of the current process,
excluding any step count restored from a checkpoint — is at least
`next_eval_step`, then `next_eval_step` is advanced by exactly the
configured interval and one evaluation batch runs; otherwise
`next_eval_step` is unchanged and no evaluation runs. -/
theorem eval_trigger_amended (enabled : Bool) (interval : Nat)
    (nes : Option Nat) (rgs par : Nat) :
    ((evalCheck enabled interval nes rgs par).run_eval = true ↔
      enabled = true ∧ ∃ n, nes = some n ∧ n ≤ rgs * par) ∧
    (∀ n, nes = some n → enabled = true → n ≤ rgs * par →
      evalCheck enabled interval nes rgs par = ⟨some (n + interval), true⟩) ∧
    (∀ n, nes = some n → ¬(enabled = true ∧ n ≤ rgs * par) →
      evalCheck enabled interval nes rgs par = ⟨some n, false⟩) ∧
    (nes = none → evalCheck enabled interval nes rgs par = ⟨none, false⟩) := by
  cases nes with
  | none => simp [evalCheck]
  | some n =>
    by_cases hc : enabled = true ∧ n ≤ rgs * par
    · have hred : evalCheck enabled interval (some n) rgs par =
          ⟨some (n + interval), true⟩ := by
        simp only [evalCheck]
        rw [if_pos hc]
      refine ⟨?_, ?_, ?_, ?_⟩
      · rw [hred]
        exact ⟨fun _ => ⟨hc.1, n, rfl, hc.2⟩, fun _ => rfl⟩
      · intro m hm _ _
        rw [Option.some.injEq] at hm
        subst hm
        exact hred
      · intro m hm hnc
        rw [Option.some.injEq] at hm
        subst hm
        exact absurd hc hnc
      · intro hn
        exact Option.noConfusion hn
    · have hred : evalCheck enabled interval (some n) rgs par =
          ⟨some n, false⟩ := by
        simp only [evalCheck]
        rw [if_neg hc]
      refine ⟨?_, ?_, ?_, ?_⟩
      · rw [hred]
        constructor
        · intro hfalse
          exact Bool.noConfusion hfalse
        · rintro ⟨he, m, hm, hle⟩
          rw [Option.some.injEq] at hm
          subst hm
          exact absurd ⟨he, hle⟩ hc
      · intro m hm he hle
        rw [Option.some.injEq] at hm
        subst hm
        exact absurd ⟨he, hle⟩ hc
      · intro m hm _
        rw [Option.some.injEq] at hm
        subst hm
        exact hred
      · intro hn
        exact Option.noConfusion hn

/-- Witness for `eval_trigger_amended`: enabled evaluation with interval
50, cursor at 10, `rollout.global_step * parallelism = 10`: the cursor
advances to 60 and evaluation runs. -/
theorem eval_trigger_amended_witness :
    some (10 : Nat) = some 10 ∧
    evalCheck true 50 (some 10) 5 2 = ⟨some 60, true⟩ :=
  ⟨rfl, (eval_trigger_amended true 50 (some 10) 5 2).2.1 10 rfl rfl (by decide)⟩

theorem totalLoss_sum (c v : ℚ) (mb : List SampleLoss) :
    (mb.map (totalLoss c v)).sum =
      (mb.map SampleLoss.pg).sum - c * (mb.map SampleLoss.ent).sum +
        (mb.map SampleLoss.vl).sum * v := by
  induction mb with
  | nil => simp
  | cons s rest ih =>
    simp only [List.map_cons, List.sum_cons, ih, totalLoss]
    ring

theorem scaledLoss_eq (c v : ℚ) (m bs : Nat) (hm : 0 < m)
    (mb : List SampleLoss) (hmb : mb.length = m) :
    scaledLoss c v m bs mb = (mb.map (totalLoss c v)).sum / bs := by
  have hm' : (m : ℚ) ≠ 0 := Nat.cast_ne_zero.mpr hm.ne'
  unfold scaledLoss microLoss mean
  simp only [List.length_map, hmb]
  rw [totalLoss_sum]
  rcases Nat.eq_zero_or_pos bs with hbs | hbs
  · subst hbs
    simp
  · have hbs' : (bs : ℚ) ≠ 0 := Nat.cast_ne_zero.mpr hbs.ne'
    field_simp

/-- C3: the loss backpropagated for each microbatch is
`(pg_loss - ent_coef * entropy_loss + vf_coef * value_loss) *
microbatch_size / batch_size` (each component a microbatch mean), and with
the logical batch partitioned into full microbatches of size
`microbatch_size` (across all ranks of one macro-chunk), the sum of the
scaled microbatch losses equals the mean per-sample total loss over the
full logical batch — so summed gradients are loss-equivalent to one
gradient step on the batch-average loss. -/
theorem microbatch_loss_scaling (c v : ℚ) (m : Nat) (hm : 0 < m)
    (mbs : List (List SampleLoss)) (hlen : ∀ mb ∈ mbs, mb.length = m) :
    (∀ (bs : Nat) (mb : List SampleLoss),
      scaledLoss c v m bs mb =
        (mean (mb.map SampleLoss.pg) - c * mean (mb.map SampleLoss.ent) +
          mean (mb.map SampleLoss.vl) * v) * ((m : ℚ) / bs)) ∧
    (mbs.map (scaledLoss c v m mbs.flatten.length)).sum =
      mean (mbs.flatten.map (totalLoss c v)) := by
  refine ⟨fun bs mb => rfl, ?_⟩
  have key : ∀ mb ∈ mbs, scaledLoss c v m mbs.flatten.length mb =
      (mb.map (totalLoss c v)).sum / mbs.flatten.length := fun mb hmb =>
    scaledLoss_eq c v m _ hm mb (hlen mb hmb)
  rw [List.map_congr_left key]
  have aux : ∀ (L : ℚ) (ls : List (List SampleLoss)),
      (ls.map fun mb => (mb.map (totalLoss c v)).sum / L).sum =
        (ls.flatten.map (totalLoss c v)).sum / L := by
    intro L ls
    induction ls with
    | nil => simp
    | cons a rest ih =>
      simp only [List.map_cons, List.sum_cons, List.flatten_cons,
        List.map_append, List.sum_append, ih, add_div]
  rw [aux]
  rw [mean, List.length_map]

/-- Witness for `microbatch_loss_scaling`: a logical batch of four samples
split into two microbatches of size two. -/
theorem microbatch_loss_scaling_witness :
    (0 : Nat) < 2 ∧
    (([[⟨1, 0, 0⟩, ⟨2, 0, 0⟩], [⟨3, 0, 0⟩, ⟨4, 0, 0⟩]] :
        List (List SampleLoss)).map
      (scaledLoss 1 2 2
        ([[⟨1, 0, 0⟩, ⟨2, 0, 0⟩], [⟨3, 0, 0⟩, ⟨4, 0, 0⟩]] :
          List (List SampleLoss)).flatten.length)).sum =
      mean ((([[⟨1, 0, 0⟩, ⟨2, 0, 0⟩], [⟨3, 0, 0⟩, ⟨4, 0, 0⟩]] :
        List (List SampleLoss)).flatten).map (totalLoss 1 2)) :=
  ⟨by decide,
   (microbatch_loss_scaling 1 2 2 (by decide)
     [[⟨1, 0, 0⟩, ⟨2, 0, 0⟩], [⟨3, 0, 0⟩, ⟨4, 0, 0⟩]] (by decide)).2⟩

theorem gradShape_addParams (ps : ParamGrads) :
    ∀ qs : ParamGrads, gradShape ps = gradShape qs →
    gradShape (addParams ps qs) = gradShape ps := by
  induction ps with
  | nil => intro qs _; cases qs <;> rfl
  | cons p rest ih =>
    intro qs h
    cases qs with
    | nil => simp [gradShape] at h
    | cons q qs' =>
      simp only [gradShape, List.map_cons, List.cons.injEq] at h
      obtain ⟨h1, h2⟩ := h
      cases p with
      | none =>
        cases q with
        | none => simpa [addParams, gradShape] using ih qs' h2
        | some g => simp at h1
      | some g =>
        cases q with
        | none => simp at h1
        | some g' =>
          have hg : g.length = g'.length := by simpa using h1
          have hrest := ih qs' h2
          simp only [addParams, List.zipWith_cons_cons, gradShape, List.map_cons,
            List.cons.injEq]
          refine ⟨?_, hrest⟩
          simp [List.length_zipWith, hg]

theorem flatGrads_cons_none (rest : ParamGrads) :
    flatGrads (none :: rest) = flatGrads rest := rfl

theorem flatGrads_cons_some (g : List ℚ) (rest : ParamGrads) :
    flatGrads (some g :: rest) = g ++ flatGrads rest := rfl

theorem flatGrads_addParams (ps : ParamGrads) :
    ∀ qs : ParamGrads, gradShape ps = gradShape qs →
    flatGrads (addParams ps qs) =
      List.zipWith (· + ·) (flatGrads ps) (flatGrads qs) := by
  induction ps with
  | nil => intro qs _; cases qs <;> simp [addParams, flatGrads]
  | cons p rest ih =>
    intro qs h
    cases qs with
    | nil => simp [gradShape] at h
    | cons q qs' =>
      simp only [gradShape, List.map_cons, List.cons.injEq] at h
      obtain ⟨h1, h2⟩ := h
      cases p with
      | none =>
        cases q with
        | none =>
          have hadd : addParams (none :: rest) (none :: qs') =
              none :: addParams rest qs' := rfl
          rw [hadd, flatGrads_cons_none, flatGrads_cons_none, flatGrads_cons_none]
          exact ih qs' h2
        | some g => simp at h1
      | some g =>
        cases q with
        | none => simp at h1
        | some g' =>
          have hg : g.length = g'.length := by simpa using h1
          have hadd : addParams (some g :: rest) (some g' :: qs') =
              some (List.zipWith (· + ·) g g') :: addParams rest qs' := rfl
          rw [hadd, flatGrads_cons_some, flatGrads_cons_some, flatGrads_cons_some,
            ih qs' h2, List.zipWith_append _ _ _ _ _ hg]

theorem writeback_flatGrads (ps : ParamGrads) :
    ∀ qs : ParamGrads, gradShape ps = gradShape qs →
    writeback ps (flatGrads qs) = qs := by
  induction ps with
  | nil =>
    intro qs h
    cases qs with
    | nil => rfl
    | cons q qs' => simp [gradShape] at h
  | cons p rest ih =>
    intro qs h
    cases qs with
    | nil => simp [gradShape] at h
    | cons q qs' =>
      simp only [gradShape, List.map_cons, List.cons.injEq] at h
      obtain ⟨h1, h2⟩ := h
      cases p with
      | none =>
        cases q with
        | none =>
          simp only [writeback, flatGrads_cons_none, List.cons.injEq]
          exact ⟨trivial, ih qs' h2⟩
        | some g => simp at h1
      | some g =>
        cases q with
        | none => simp at h1
        | some g' =>
          have hg : g.length = g'.length := by simpa using h1
          simp only [writeback, flatGrads_cons_some, hg, List.take_left,
            List.drop_left, List.cons.injEq]
          exact ⟨trivial, ih qs' h2⟩

theorem gradShape_sumParams :
    ∀ (world : List ParamGrads) (s : List (Option Nat)), world ≠ [] →
    (∀ p ∈ world, gradShape p = s) → gradShape (sumParams world) = s := by
  intro world
  induction world with
  | nil => intro s hne _; exact absurd rfl hne
  | cons p rest ih =>
    intro s _ hall
    cases rest with
    | nil => exact hall p (by simp)
    | cons q rest' =>
      have hsum : gradShape (sumParams (q :: rest')) = s :=
        ih s (by simp) fun r hr => hall r (List.mem_cons_of_mem p hr)
      have hp : gradShape p = s := hall p (List.mem_cons_self _ _)
      rw [show sumParams (p :: q :: rest') =
        addParams p (sumParams (q :: rest')) from rfl]
      rw [gradShape_addParams p (sumParams (q :: rest')) (hp.trans hsum.symm)]
      exact hp

theorem sumBuffers_flatGrads :
    ∀ (world : List ParamGrads) (s : List (Option Nat)),
    (∀ p ∈ world, gradShape p = s) →
    sumBuffers (world.map flatGrads) = flatGrads (sumParams world) := by
  intro world
  induction world with
  | nil => intro s _; rfl
  | cons p rest ih =>
    intro s hall
    cases rest with
    | nil => rfl
    | cons q rest' =>
      have hsum : gradShape (sumParams (q :: rest')) = s :=
        gradShape_sumParams (q :: rest') s (by simp)
          fun r hr => hall r (List.mem_cons_of_mem p hr)
      have hp : gradShape p = s := hall p (List.mem_cons_self _ _)
      rw [show (p :: q :: rest').map flatGrads =
        flatGrads p :: (q :: rest').map flatGrads from rfl]
      rw [show sumBuffers (flatGrads p :: (q :: rest').map flatGrads) =
        List.zipWith (· + ·) (flatGrads p)
          (sumBuffers ((q :: rest').map flatGrads)) from rfl]
      rw [ih s fun r hr => hall r (List.mem_cons_of_mem p hr)]
      rw [← flatGrads_addParams p (sumParams (q :: rest')) (hp.trans hsum.symm)]
      rfl

theorem gradShape_getD_none (ps : ParamGrads) :
    ∀ qs : ParamGrads, gradShape ps = gradShape qs →
    ∀ i, ps.getD i none = none → qs.getD i none = none := by
  induction ps with
  | nil =>
    intro qs h i _
    cases qs with
    | nil => simp
    | cons q qs' => simp [gradShape] at h
  | cons p rest ih =>
    intro qs h i hi
    cases qs with
    | nil => simp
    | cons q qs' =>
      simp only [gradShape, List.map_cons, List.cons.injEq] at h
      obtain ⟨h1, h2⟩ := h
      cases i with
      | zero =>
        cases p with
        | none =>
          cases q with
          | none => rfl
          | some g => simp at h1
        | some g => exact absurd hi (by simp)
      | succ j => exact ih qs' h2 j hi

/-- C4: with every rank holding the same gradient shape (same null pattern
and per-parameter sizes), `gradient_allreduce` — concatenating exactly the
non-null gradients in parameter enumeration order into one flat buffer,
sum-reducing it across all ranks, and writing the values back in place by
offset — yields, for every parameter, the elementwise sum over all ranks
of that parameter's gradient, with no division by the number of ranks, and
leaves parameters with null gradients unchanged (still null). -/
theorem gradient_allreduce_spec (world : List ParamGrads) (me : ParamGrads)
    (hw : world ≠ []) (hs : ∀ p ∈ world, gradShape p = gradShape me) :
    gradient_allreduce world me = sumParams world ∧
    ∀ i, me.getD i none = none →
      (gradient_allreduce world me).getD i none = none := by
  have hshape : gradShape (sumParams world) = gradShape me :=
    gradShape_sumParams world (gradShape me) hw hs
  have hmain : gradient_allreduce world me = sumParams world := by
    unfold gradient_allreduce
    rw [sumBuffers_flatGrads world (gradShape me) hs]
    exact writeback_flatGrads me (sumParams world) hshape.symm
  refine ⟨hmain, ?_⟩
  intro i hi
  rw [hmain]
  exact gradShape_getD_none me (sumParams world) hshape.symm i hi

/-- Witness for `gradient_allreduce_spec`: two ranks, three parameters
(the middle one with a null gradient): the result is the per-parameter
elementwise sum and the null gradient stays null. -/
theorem gradient_allreduce_spec_witness :
    ([[some [(1 : ℚ), 2], none, some [3]], [some [10, 20], none, some [30]]] :
      List ParamGrads) ≠ [] ∧
    gradient_allreduce
      [[some [(1 : ℚ), 2], none, some [3]], [some [10, 20], none, some [30]]]
      [some [(1 : ℚ), 2], none, some [3]] =
      sumParams [[some [(1 : ℚ), 2], none, some [3]],
        [some [10, 20], none, some [30]]] :=
  ⟨by decide,
   (gradient_allreduce_spec
     [[some [(1 : ℚ), 2], none, some [3]], [some [10, 20], none, some [30]]]
     [some [(1 : ℚ), 2], none, some [3]] (by decide) (by decide)).1⟩

theorem maskProd_nil : maskProd [] = 1 := rfl

theorem maskProd_cons (x : ℚ × Bool) (l : List (ℚ × Bool)) :
    maskProd (x :: l) = nonterm x.2 * maskProd l := by
  simp [maskProd]

theorem computeReturns_length (gamma boot : ℚ) (l : List (ℚ × Bool)) :
    (computeReturns gamma boot l).length = l.length := by
  induction l with
  | nil => rfl
  | cons x rest ih =>
    obtain ⟨r, d⟩ := x
    simp [computeReturns, ih]

theorem discountedReturn_cons (gamma boot r : ℚ) (d : Bool)
    (rest : List (ℚ × Bool)) :
    discountedReturn gamma boot ((r, d) :: rest) =
      r + gamma * nonterm d * discountedReturn gamma boot rest := by
  unfold discountedReturn
  rw [List.length_cons, List.range_succ_eq_map, List.map_cons, List.sum_cons,
    List.map_map]
  have hmap : (List.range rest.length).map
      ((fun k => gamma ^ k * maskProd (((r, d) :: rest).take k) *
        ((((r, d) :: rest).getD k (0, true)).1)) ∘ Nat.succ) =
      (List.range rest.length).map (fun k => gamma * nonterm d *
        (gamma ^ k * maskProd (rest.take k) * ((rest.getD k (0, true)).1))) :=
    List.map_congr_left fun k _ => by
      simp only [Function.comp_apply, List.take_succ_cons, List.getD_cons_succ,
        maskProd_cons, pow_succ]
      ring
  rw [hmap,
    List.sum_map_mul_left (List.range rest.length)
      (fun k => gamma ^ k * maskProd (rest.take k) * ((rest.getD k (0, true)).1))
      (gamma * nonterm d)]
  simp only [pow_zero, List.take_zero, List.getD_cons_zero, maskProd_cons,
    maskProd_nil, pow_succ]
  ring

theorem computeReturns_headD (gamma boot : ℚ) :
    ∀ l : List (ℚ × Bool),
    (computeReturns gamma boot l).headD boot = discountedReturn gamma boot l := by
  intro l
  induction l with
  | nil => simp [computeReturns, discountedReturn, maskProd]
  | cons x rest ih =>
    obtain ⟨r, d⟩ := x
    rw [discountedReturn_cons, ← ih]
    rfl

theorem computeReturns_drop (gamma boot : ℚ) :
    ∀ (l : List (ℚ × Bool)) (t : Nat),
    (computeReturns gamma boot l).drop t = computeReturns gamma boot (l.drop t) := by
  intro l
  induction l with
  | nil => intro t; simp [computeReturns]
  | cons x rest ih =>
    intro t
    obtain ⟨r, d⟩ := x
    cases t with
    | zero => rfl
    | succ j => simpa [computeReturns] using ih j

theorem getD_eq_headD_drop {α : Type} (l : List α) :
    ∀ (t : Nat) (dflt : α), l.getD t dflt = (l.drop t).headD dflt := by
  induction l with
  | nil => intro t dflt; cases t <;> rfl
  | cons a rest ih =>
    intro t dflt
    cases t with
    | zero => rfl
    | succ j => exact ih j dflt

/-- C9: with `gae_enabled = false` (modelled from the spec, `gae.py` not
being under src), the computed returns satisfy the reverse recurrence
`return[t] = reward[t] + gamma * (1 - done[t]) * return[t+1]` with the
bootstrap value standing in at the window boundary; every `return[t]`
equals the discounted sum of future rewards truncated at episode
boundaries (done flags zero all later contributions, the discounted
bootstrap term surviving only when no done flag follows); and
`advantage[t] = return[t] - value[t]`. -/
theorem non_gae_returns_spec (gamma boot : ℚ) (l : List (ℚ × Bool))
    (values : List ℚ) :
    (computeReturns gamma boot l).length = l.length ∧
    (∀ t, t < l.length →
      (computeReturns gamma boot l).getD t 0 =
        (l.getD t (0, true)).1 + gamma * nonterm (l.getD t (0, true)).2 *
          ((computeReturns gamma boot l).getD (t + 1) boot)) ∧
    (∀ t, t < l.length →
      (computeReturns gamma boot l).getD t 0 =
        discountedReturn gamma boot (l.drop t)) ∧
    (∀ t, t < l.length → t < values.length →
      (computeAdvantages values (computeReturns gamma boot l)).getD t 0 =
        (computeReturns gamma boot l).getD t 0 - values.getD t 0) := by
  refine ⟨computeReturns_length gamma boot l, ?_, ?_, ?_⟩
  · intro t ht
    cases hld : l.drop t with
    | nil =>
      have hlen0 : (l.drop t).length = 0 := by rw [hld]; rfl
      rw [List.length_drop] at hlen0
      omega
    | cons y ys =>
      obtain ⟨r, d⟩ := y
      have hy : l.getD t (0, true) = (r, d) := by
        rw [getD_eq_headD_drop, hld]
        rfl
      have hys : l.drop (t + 1) = ys := by
        have h1 : (l.drop t).drop 1 = l.drop (t + 1) := List.drop_drop 1 t l
        rw [hld] at h1
        simpa using h1.symm
      rw [getD_eq_headD_drop (computeReturns gamma boot l) t,
        computeReturns_drop, hld]
      rw [getD_eq_headD_drop (computeReturns gamma boot l) (t + 1),
        computeReturns_drop, hys]
      rw [hy]
      simp [computeReturns]
  · intro t ht
    rw [getD_eq_headD_drop (computeReturns gamma boot l) t, computeReturns_drop]
    cases hld : l.drop t with
    | nil =>
      have hlen0 : (l.drop t).length = 0 := by rw [hld]; rfl
      rw [List.length_drop] at hlen0
      omega
    | cons y ys =>
      obtain ⟨r, d⟩ := y
      rw [← computeReturns_headD gamma boot ((r, d) :: ys)]
      rfl
  · intro t ht hv
    have ht' : t < (computeReturns gamma boot l).length := by
      rw [computeReturns_length]
      exact ht
    have htz : t < (List.zipWith (fun ret v => ret - v)
        (computeReturns gamma boot l) values).length := by
      rw [List.length_zipWith, computeReturns_length]
      omega
    rw [computeAdvantages, List.getD_eq_getElem _ _ htz, List.getElem_zipWith,
      ← List.getD_eq_getElem (computeReturns gamma boot l) 0 ht',
      ← List.getD_eq_getElem values 0 hv]

/-- Witness for `non_gae_returns_spec`: `gamma = 1/2`, bootstrap 5, window
`[(1, false), (2, true), (3, false)]`, values `[10, 20, 30]`: at `t = 0`
the return equals its truncated discounted sum (the done flag at step 1
cuts off steps ≥ 2 and the bootstrap). -/
theorem non_gae_returns_spec_witness :
    (0 : Nat) < 3 ∧
    (computeReturns (1/2 : ℚ) 5 [(1, false), (2, true), (3, false)]).getD 0 0 =
      discountedReturn (1/2 : ℚ) 5 [(1, false), (2, true), (3, false)] := by
  refine ⟨by decide, ?_⟩
  have h := (non_gae_returns_spec (1/2 : ℚ) 5
    [(1, false), (2, true), (3, false)] [10, 20, 30]).2.2.1 0 (by decide)
  simpa using h

/-- Witness for `init_train_state_spec` at a concrete configuration with
evaluation enabled (not on the first step) and a separate value net. -/
theorem init_train_state_spec_witness :
    (init_train_state ⟨100, ⟨4, 8⟩, ⟨16, none, 2⟩, some ⟨50, false⟩,
      some ()⟩).next_eval_step = some 50 := by
  have h := init_train_state_spec ⟨100, ⟨4, 8⟩, ⟨16, none, 2⟩, some ⟨50, false⟩, some ()⟩
  simpa using h.2.2.2.1 ⟨50, false⟩ rfl

end EnnTrainer
